import Mathlib

/-!
# Verification of `src/bot.ts` (minecraft-discord-logger)

Shallow embedding of the outbound message batching pipeline
(`sanitizeLine`, `splitToChunks`, `enqueue`/`flushQueue`), the remote-console
session manager (`RconManager`) and the shutdown coordinator (`shutdown`)
of `src/bot.ts`, together with proofs of the specified properties.

Strings are modelled as `List Char` (JS strings are sequences of UTF-16 code
units; all lengths and slices in the source are in those units, and the model
measures the same sequences element-wise).
-/

namespace Bot

/-! ## Constants (src/bot.ts:25-30) -/

/-- `const DISCORD_HARD_LIMIT = 2000` (src/bot.ts:28). -/
def DISCORD_HARD_LIMIT : Nat := 2000

/-- `const SAFETY_HEADROOM = 10` (src/bot.ts:29). -/
def SAFETY_HEADROOM : Nat := 10

/-- `const MAX_CONTENT = DISCORD_HARD_LIMIT - SAFETY_HEADROOM` (src/bot.ts:30). -/
def MAX_CONTENT : Nat := DISCORD_HARD_LIMIT - SAFETY_HEADROOM

/-- The two tunables of the batching loop.  In the source they are the globals
`MAX_CONTENT` (src/bot.ts:30) and `MAX_LINES_PER_BATCH` (src/bot.ts:26,
default 40). -/
structure BatchConfig where
  maxContent : Nat
  maxLinesPerBatch : Nat

/-- The configuration the source actually runs with by default:
`MAX_CONTENT = 1990`, `MAX_LINES_PER_BATCH = 40`. -/
def defaultConfig : BatchConfig := ⟨MAX_CONTENT, 40⟩

/-! ## LineSanitizer (src/bot.ts:84-86)

```
function sanitizeLine(line: string): string {
  return line.replaceAll("@", "@​").replaceAll("```", "`​``");
}
```
-/

/-- The character U+200B ZERO WIDTH SPACE — the `​` literal the source
inserts after every `@` and inside every triple-backtick fence. -/
def zwsp : Char := '\u200B'

/-- The character U+200D ZERO WIDTH JOINER — the character the spec *names*
("zero-width joiner").  Note `zwsp ≠ zwj`: the code inserts U+200B,
not U+200D. -/
def zwj : Char := '\u200D'

/-- `line.replaceAll("@", "@​")` — first pass of `sanitizeLine`
(src/bot.ts:85).  `replaceAll` scans left to right and resumes after each
replacement; for the one-character pattern `"@"` that is exactly a
character-wise map. -/
def replaceAt : List Char → List Char
  | [] => []
  | c :: rest => if c = '@' then '@' :: zwsp :: replaceAt rest else c :: replaceAt rest

/-- `.replaceAll("```", "`​``")` — second pass of `sanitizeLine`
(src/bot.ts:85).  `replaceAll` scans left to right; whenever the next three
characters are backticks it emits the replacement and resumes after the
matched occurrence, otherwise it copies one character and advances. -/
def replaceFence : List Char → List Char
  | [] => []
  | [c] => [c]
  | [c, d] => [c, d]
  | c :: d :: e :: rest =>
    if c = '`' ∧ d = '`' ∧ e = '`' then
      '`' :: zwsp :: '`' :: '`' :: replaceFence rest
    else
      c :: replaceFence (d :: e :: rest)

/-- `sanitizeLine` (src/bot.ts:84-86): the `"@"` pass followed by the
triple-backtick pass on its result. -/
def sanitizeLine (line : List Char) : List Char := replaceFence (replaceAt line)

/-- Modelled from the spec (§4.1 LineSanitizer), parametrised by the inserted
zero-width marker character: a single simultaneous left-to-right pass that
replaces every literal `@` by `@` followed by the marker, replaces every
triple-backtick fence by backtick, marker, double backtick, and leaves every
other character unchanged (occurrences scanned left to right,
non-overlapping). -/
def specSanitizeWith (marker : Char) : List Char → List Char
  | [] => []
  | [c] => if c = '@' then ['@', marker] else [c]
  | [c, d] =>
    if c = '@' then '@' :: marker :: specSanitizeWith marker [d]
    else c :: specSanitizeWith marker [d]
  | c :: d :: e :: rest =>
    if c = '@' then '@' :: marker :: specSanitizeWith marker (d :: e :: rest)
    else if c = '`' ∧ d = '`' ∧ e = '`' then
      '`' :: marker :: '`' :: '`' :: specSanitizeWith marker rest
    else c :: specSanitizeWith marker (d :: e :: rest)

/-- The spec's sanitizer read literally: the inserted marker is a
zero-width *joiner* (U+200D). -/
def specSanitizeJoiner : List Char → List Char := specSanitizeWith zwj

/-- The spec's sanitizer with the marker the code actually inserts: a
zero-width *space* (U+200B). -/
def specSanitize : List Char → List Char := specSanitizeWith zwsp

/-! ## Chunker (src/bot.ts:87-91)

```
function splitToChunks(s: string, max: number): string[] {
  const out: string[] = [];
  for (let i = 0; i < s.length; i += max) out.push(s.slice(i, i + max));
  return out;
}
```

For `max ≥ 1` the loop emits `s.slice(0, max)` and continues on the rest.
(For `max = 0` the JS loop would not terminate; the model returns `[]` there,
and every theorem about the chunker assumes `0 < max`, which holds at both
call sites: `MAX_CONTENT = 1990` and `DISCORD_HARD_LIMIT - 1 = 1999`.)
-/

def splitToChunks (s : List Char) (max : Nat) : List (List Char) :=
  if hs : s = [] then []
  else if hm : max = 0 then []
  else s.take max :: splitToChunks (s.drop max) max
termination_by s.length
decreasing_by
  simp only [List.length_drop]
  have h1 : 0 < s.length := List.length_pos.mpr hs
  omega

/-! ## BatchQueue / flushQueue (src/bot.ts:102-167)

`enqueue(line)` pushes `sanitizeLine(line)` onto the FIFO `queue`
(src/bot.ts:102-105).  `flushQueue` drains the queue, packing lines into
`current` (in-progress batch) and sending messages along the way.

The model takes a snapshot of the queue and assumes the destination channel
is available and every send succeeds (the assumption under which the claims
about delivery are stated); each message handed to `channel.send` is recorded
as a `Sent` value in delivery order. -/

/-- One outbound message, as `flushQueue` hands it to `channel.send`:
either a packed batch (`sendPacked(current)`, src/bot.ts:116-124,129-133) or
a single oversized-line fragment `chunks[i] + suffix` (src/bot.ts:142-145).
`index` is the 1-based position `i + 1`; `total` is `chunks.length`. -/
inductive Sent where
  | batch (lines : List (List Char))
  | frag (text : List Char) (index total : Nat)
deriving DecidableEq

/-- `lines.join("\n")` (src/bot.ts:118). -/
def joinNL : List (List Char) → List Char
  | [] => []
  | [l] => l
  | l :: rest => l ++ '\n' :: joinNL rest

/-- The positional suffix `` ` [${i}/${total}]` `` (src/bot.ts:143), with `i`
already 1-based.  Number rendering is decimal, as in a JS template literal. -/
def posSuffix (i total : Nat) : List Char :=
  ' ' :: '[' :: (Nat.repr i).data ++ '/' :: (Nat.repr total).data ++ [']']

/-- The text `channel.send` receives for a message.  A packed batch sends
`lines.join("\n")`; a fragment sends `chunks[i] + suffix` where `suffix` is
the positional suffix when `chunks.length > 1` and `""` otherwise
(src/bot.ts:143-144). -/
def Sent.content : Sent → List Char
  | .batch lines => joinNL lines
  | .frag text index total => text ++ (if 1 < total then posSuffix index total else [])

/-- The fragment-sending loop `for (let i = 0; i < chunks.length; i++) ...`
(src/bot.ts:142-145): one message per chunk, carrying its 1-based index and
the total chunk count. -/
def fragMessagesAux (total : Nat) : Nat → List (List Char) → List Sent
  | _, [] => []
  | i, c :: rest => Sent.frag c (i + 1) total :: fragMessagesAux total (i + 1) rest

/-- All messages sent for one oversized line's chunk list. -/
def fragMessages (chunks : List (List Char)) : List Sent :=
  fragMessagesAux chunks.length 0 chunks

/-- `const addLen = (current.length === 0 ? 0 : 1) + raw.length`
(src/bot.ts:149). -/
def batchAddLen (current : List (List Char)) (raw : List Char) : Nat :=
  (if current.length = 0 then 0 else 1) + raw.length

/-- `flushCurrent` (src/bot.ts:129-133): sends the in-progress batch if it is
non-empty (the messages it produces; the accompanying reset of
`current`/`currentLen` is explicit at each use site of the model). -/
def flushCurrent (current : List (List Char)) : List Sent :=
  if current.length = 0 then [] else [Sent.batch current]

/-- The `while (queue.length > 0)` drain loop of `flushQueue`
(src/bot.ts:135-159) followed by the final `flushCurrent` (src/bot.ts:161),
returning the sent messages in delivery order.

* oversized line (`raw.length > MAX_CONTENT`, src/bot.ts:139-147): flush any
  in-progress batch, then send each chunk of `splitToChunks(raw, MAX_CONTENT)`
  as its own message, then continue with an empty batch;
* overflow (`wouldOverflowChars || wouldOverflowLines`, src/bot.ts:150-155):
  flush the in-progress batch, then start a new one holding `raw` with
  running length `addLen` (computed against the *old* batch, src/bot.ts:149);
* otherwise append `raw` and add `addLen` to the running length
  (src/bot.ts:157-158).

(`queue.shift()` can return `undefined` only on an empty queue, which the
loop guard excludes, so the `raw == null` continue of src/bot.ts:137 is
unreachable and has no counterpart in the model.) -/
def flushLoop (cfg : BatchConfig) :
    List (List Char) → List (List Char) → Nat → List Sent
  | [], current, _ => flushCurrent current
  | raw :: rest, current, currentLen =>
    if cfg.maxContent < raw.length then
      flushCurrent current ++ fragMessages (splitToChunks raw cfg.maxContent)
        ++ flushLoop cfg rest [] 0
    else if cfg.maxContent < currentLen + batchAddLen current raw
        ∨ cfg.maxLinesPerBatch < current.length + 1 then
      flushCurrent current ++ flushLoop cfg rest [raw] (batchAddLen current raw)
    else
      flushLoop cfg rest (current ++ [raw]) (currentLen + batchAddLen current raw)

/-- `flushQueue` on a queue snapshot (src/bot.ts:107-167): the drain loop
started with an empty in-progress batch (`current = []`, `currentLen = 0`,
src/bot.ts:126-127).  An empty queue yields no messages, matching the early
return of src/bot.ts:108-114. -/
def flushQueue (cfg : BatchConfig) (queue : List (List Char)) : List Sent :=
  flushLoop cfg queue [] 0

/-- `enqueue` (src/bot.ts:102-105) applied to a whole sequence of raw lines:
the queue then holds `sanitizeLine` of each line, in enqueue order. -/
def enqueueAll (rawLines : List (List Char)) : List (List Char) :=
  rawLines.map sanitizeLine

/-- The line text a message delivers, without packing separators and without
the positional suffix: the lines of a batch, concatenated, or the fragment's
chunk text. -/
def payload : Sent → List Char
  | .batch lines => lines.flatten
  | .frag text _ _ => text

/-- All text delivered by a message sequence, in delivery order. -/
def delivered (msgs : List Sent) : List Char := (msgs.map payload).flatten

/-! ## Sanitizer lemmas -/

theorem replaceAt_at (t : List Char) :
    replaceAt ('@' :: t) = '@' :: zwsp :: replaceAt t := by
  simp [replaceAt]

theorem replaceAt_ne {c : Char} (hc : c ≠ '@') (t : List Char) :
    replaceAt (c :: t) = c :: replaceAt t := by
  simp [replaceAt, hc]

theorem replaceAt_cons (c : Char) (t : List Char) :
    ∃ u, replaceAt (c :: t) = c :: u := by
  by_cases hc : c = '@'
  · subst hc; exact ⟨zwsp :: replaceAt t, replaceAt_at t⟩
  · exact ⟨replaceAt t, replaceAt_ne hc t⟩

theorem replaceFence_cons_ne {c : Char} (hc : c ≠ '`') (t : List Char) :
    replaceFence (c :: t) = c :: replaceFence t := by
  match t with
  | [] => simp [replaceFence]
  | [d] => simp [replaceFence]
  | d :: e :: t' => simp [replaceFence, hc]

theorem replaceFence_bq_ne {d : Char} (hd : d ≠ '`') (t : List Char) :
    replaceFence ('`' :: d :: t) = '`' :: replaceFence (d :: t) := by
  match t with
  | [] => simp [replaceFence]
  | e :: t' => simp [replaceFence, hd]

theorem replaceFence_bq_bq_ne {e : Char} (he : e ≠ '`') (t : List Char) :
    replaceFence ('`' :: '`' :: e :: t) = '`' :: '`' :: replaceFence (e :: t) := by
  have h1 : replaceFence ('`' :: '`' :: e :: t) = '`' :: replaceFence ('`' :: e :: t) := by
    simp [replaceFence, he]
  rw [h1, replaceFence_bq_ne he]

theorem replaceFence_fence (t : List Char) :
    replaceFence ('`' :: '`' :: '`' :: t) = '`' :: zwsp :: '`' :: '`' :: replaceFence t := by
  simp [replaceFence]

theorem specWith_at (m : Char) (t : List Char) :
    specSanitizeWith m ('@' :: t) = '@' :: m :: specSanitizeWith m t := by
  match t with
  | [] => simp [specSanitizeWith]
  | [d] => simp [specSanitizeWith]
  | d :: e :: t' => simp [specSanitizeWith]

theorem specWith_cons_ne (m : Char) {c : Char} (hc1 : c ≠ '@') (hc2 : c ≠ '`')
    (t : List Char) : specSanitizeWith m (c :: t) = c :: specSanitizeWith m t := by
  match t with
  | [] => simp [specSanitizeWith, hc1]
  | [d] => simp [specSanitizeWith, hc1]
  | d :: e :: t' => simp [specSanitizeWith, hc1, hc2]

theorem specWith_bq_ne (m : Char) {d : Char} (hd : d ≠ '`') (t : List Char) :
    specSanitizeWith m ('`' :: d :: t) = '`' :: specSanitizeWith m (d :: t) := by
  match t with
  | [] => simp [specSanitizeWith]
  | e :: t' => simp [specSanitizeWith, hd]

theorem specWith_bq_bq_ne (m : Char) {e : Char} (he : e ≠ '`') (t : List Char) :
    specSanitizeWith m ('`' :: '`' :: e :: t) = '`' :: '`' :: specSanitizeWith m (e :: t) := by
  have h1 : specSanitizeWith m ('`' :: '`' :: e :: t)
      = '`' :: specSanitizeWith m ('`' :: e :: t) := by
    simp [specSanitizeWith, he]
  rw [h1, specWith_bq_ne m he]

theorem specWith_fence (m : Char) (t : List Char) :
    specSanitizeWith m ('`' :: '`' :: '`' :: t)
      = '`' :: m :: '`' :: '`' :: specSanitizeWith m t := by
  simp [specSanitizeWith]

/-- The two sequential `replaceAll` passes of `sanitizeLine` compute exactly
the spec's single simultaneous pass, with the zero-width space as marker
(bounded-length induction). -/
theorem sanitize_eq_aux :
    ∀ n (s : List Char), s.length ≤ n →
      replaceFence (replaceAt s) = specSanitizeWith zwsp s := by
  intro n
  induction n with
  | zero =>
    intro s hs
    have h0 : s = [] := List.length_eq_zero.mp (Nat.le_zero.mp hs)
    subst h0; rfl
  | succ n ih =>
    intro s hs
    cases s with
    | nil => rfl
    | cons c rest =>
      by_cases hc : c = '@'
      · subst hc
        rw [replaceAt_at, replaceFence_cons_ne (by decide), replaceFence_cons_ne (by decide),
          ih rest (by simp only [List.length_cons] at hs; omega), specWith_at]
      · by_cases hb : c = '`'
        · subst hb
          cases rest with
          | nil => decide
          | cons d rest2 =>
            by_cases hd : d = '`'
            · subst hd
              cases rest2 with
              | nil => decide
              | cons e rest3 =>
                by_cases he : e = '`'
                · subst he
                  rw [replaceAt_ne (by decide), replaceAt_ne (by decide),
                    replaceAt_ne (by decide), replaceFence_fence,
                    ih rest3 (by simp only [List.length_cons] at hs; omega), specWith_fence]
                · rw [replaceAt_ne (by decide), replaceAt_ne (by decide)]
                  obtain ⟨u, hu⟩ := replaceAt_cons e rest3
                  rw [hu, replaceFence_bq_bq_ne he, ← hu,
                    ih (e :: rest3) (by simp only [List.length_cons] at hs ⊢; omega),
                    specWith_bq_bq_ne zwsp he]
            · rw [replaceAt_ne (by decide)]
              obtain ⟨u, hu⟩ := replaceAt_cons d rest2
              rw [hu, replaceFence_bq_ne hd, ← hu,
                ih (d :: rest2) (by simp only [List.length_cons] at hs ⊢; omega),
                specWith_bq_ne zwsp hd]
        · rw [replaceAt_ne hc, replaceFence_cons_ne hb,
            ih rest (by simp only [List.length_cons] at hs; omega),
            specWith_cons_ne zwsp hc hb]

/-! ## C5 and C6: sanitizer claims -/

/-- C5, counterexample to the claim as stated: the claim (and spec §4.1) says
the inserted marker is a zero-width *joiner* (U+200D); the code inserts a
zero-width *space* (U+200B).  On the input `"@"`, `sanitizeLine` produces
`['@', U+200B]`, while the spec's sanitizer read literally produces
`['@', U+200D]`, and the two differ. -/
theorem C5_counterexample_joiner :
    sanitizeLine ['@'] = ['@', zwsp]
      ∧ specSanitizeJoiner ['@'] = ['@', zwj]
      ∧ sanitizeLine ['@'] ≠ specSanitizeJoiner ['@'] := by
  decide

/-- C5 (amended): `sanitize` is a pure total function that, for every input
string, replaces every literal `@` with `@` followed by a zero-width *space*
(U+200B) and every triple-backtick fence with the sequence backtick,
zero-width space, double backtick, leaving all other characters unchanged:
`sanitizeLine` agrees everywhere with the spec-side single-pass replacement
function. -/
theorem C5_sanitize_eq_spec (s : List Char) : sanitizeLine s = specSanitize s :=
  sanitize_eq_aux s.length s le_rfl

/-- C6: `sanitize` is not idempotent: re-sanitizing already-sanitized text
inserts additional zero-width markers.  Witnessed by `"@"`, whose second
sanitization appends a second zero-width space. -/
theorem C6_sanitize_not_idempotent :
    ∃ x : List Char, sanitizeLine (sanitizeLine x) ≠ sanitizeLine x :=
  ⟨['@'], by decide⟩

/-! ## Chunker lemmas -/

theorem splitToChunks_nil (max : Nat) : splitToChunks [] max = [] := by
  rw [splitToChunks]
  simp

theorem splitToChunks_cons {s : List Char} (hs : s ≠ []) {max : Nat} (hm : 0 < max) :
    splitToChunks s max = s.take max :: splitToChunks (s.drop max) max := by
  rw [splitToChunks]
  simp [hs, Nat.pos_iff_ne_zero.mp hm]

/-- Every chunk has length at most `max`. -/
theorem splitToChunks_length_le :
    ∀ n (s : List Char), s.length ≤ n → ∀ {max : Nat},
      ∀ c ∈ splitToChunks s max, c.length ≤ max := by
  intro n
  induction n with
  | zero =>
    intro s hs max c hc
    have h0 : s = [] := List.length_eq_zero.mp (Nat.le_zero.mp hs)
    subst h0
    simp [splitToChunks_nil] at hc
  | succ n ih =>
    intro s hs max c hc
    by_cases h0 : s = []
    · subst h0; simp [splitToChunks_nil] at hc
    · by_cases hm : 0 < max
      · rw [splitToChunks_cons h0 hm] at hc
        rcases List.mem_cons.mp hc with h | h
        · subst h; simp
        · exact ih (s.drop max) (by
            simp only [List.length_drop]
            have := List.length_pos.mpr h0
            omega) c h
      · have hm0 : max = 0 := by omega
        subst hm0
        rw [splitToChunks] at hc
        simp [h0] at hc

/-- The chunks reassemble to the original string. -/
theorem splitToChunks_flatten :
    ∀ n (s : List Char), s.length ≤ n → ∀ {max : Nat}, 0 < max →
      (splitToChunks s max).flatten = s := by
  intro n
  induction n with
  | zero =>
    intro s hs max hm
    have h0 : s = [] := List.length_eq_zero.mp (Nat.le_zero.mp hs)
    subst h0; simp [splitToChunks_nil]
  | succ n ih =>
    intro s hs max hm
    by_cases h0 : s = []
    · subst h0; simp [splitToChunks_nil]
    · rw [splitToChunks_cons h0 hm, List.flatten_cons,
        ih (s.drop max) (by
          simp only [List.length_drop]
          have := List.length_pos.mpr h0
          omega) hm,
        List.take_append_drop]

/-- Arithmetic step for the chunk count: removing one full chunk of `max`
characters lowers the ceiling quotient by one. -/
theorem chunkCountStep (a max : Nat) (hm : 0 < max) (ha : 0 < a) :
    (a - max + max - 1) / max + 1 = (a + max - 1) / max := by
  by_cases hcase : a ≤ max
  · have h1 : a - max = 0 := by omega
    rw [h1, Nat.div_eq_of_lt (by omega : 0 + max - 1 < max)]
    have h3 : a + max - 1 = (a - 1) + max := by omega
    rw [h3, Nat.add_div_right _ hm, Nat.div_eq_of_lt (by omega : a - 1 < max)]
  · have h4 : a - max + max - 1 = a - 1 := by omega
    have h5 : a + max - 1 = (a - 1) + max := by omega
    rw [h4, h5, Nat.add_div_right _ hm]

/-- The chunk count is `ceil (s.length / max)`, written in `Nat` as
`(s.length + max - 1) / max`. -/
theorem splitToChunks_count :
    ∀ n (s : List Char), s.length ≤ n → ∀ {max : Nat}, 0 < max →
      (splitToChunks s max).length = (s.length + max - 1) / max := by
  intro n
  induction n with
  | zero =>
    intro s hs max hm
    have h0 : s = [] := List.length_eq_zero.mp (Nat.le_zero.mp hs)
    subst h0
    simp [splitToChunks_nil, Nat.div_eq_of_lt (by omega : max - 1 < max)]
  | succ n ih =>
    intro s hs max hm
    by_cases h0 : s = []
    · subst h0
      simp [splitToChunks_nil, Nat.div_eq_of_lt (by omega : max - 1 < max)]
    · have hlen : 0 < s.length := List.length_pos.mpr h0
      rw [splitToChunks_cons h0 hm]
      have ihd := ih (s.drop max) (by
        simp only [List.length_drop]
        omega) hm
      simp only [List.length_cons, ihd, List.length_drop]
      exact chunkCountStep s.length max hm hlen

/-- Chunking a string of exactly `n * max` repeated characters gives `n` full
chunks. -/
theorem splitToChunks_replicate (c : Char) {max : Nat} (hm : 0 < max) :
    ∀ n, splitToChunks (List.replicate (n * max) c) max
      = List.replicate n (List.replicate max c) := by
  intro n
  induction n with
  | zero => simp [splitToChunks_nil]
  | succ k ih =>
    have hmul : (k + 1) * max = k * max + max := Nat.succ_mul k max
    have hne : List.replicate ((k + 1) * max) c ≠ [] := by
      simp
      omega
    rw [splitToChunks_cons hne hm, List.take_replicate, List.drop_replicate]
    have h1 : min max ((k + 1) * max) = max := Nat.min_eq_left (by omega)
    have h2 : (k + 1) * max - max = k * max := by omega
    rw [h1, h2, ih, List.replicate_succ]

/-! ## Fragment-message lemmas -/

theorem delivered_nil : delivered [] = [] := rfl

theorem delivered_append (a b : List Sent) :
    delivered (a ++ b) = delivered a ++ delivered b := by
  simp [delivered]

theorem delivered_fragMessagesAux (total : Nat) :
    ∀ (chunks : List (List Char)) (i : Nat),
      delivered (fragMessagesAux total i chunks) = chunks.flatten := by
  intro chunks
  induction chunks with
  | nil => intro i; rfl
  | cons c rest ih =>
    intro i
    simp only [fragMessagesAux, delivered, List.map_cons, List.flatten_cons, payload]
    have := ih (i + 1)
    simp only [delivered] at this
    rw [this]

theorem delivered_fragMessages (chunks : List (List Char)) :
    delivered (fragMessages chunks) = chunks.flatten :=
  delivered_fragMessagesAux chunks.length chunks 0

/-- Everything `fragMessagesAux` emits is a fragment of one of the chunks,
carrying the fixed total. -/
theorem mem_fragMessagesAux (total : Nat) :
    ∀ (chunks : List (List Char)) (i : Nat) (m : Sent),
      m ∈ fragMessagesAux total i chunks →
        ∃ t j, m = Sent.frag t j total ∧ t ∈ chunks := by
  intro chunks
  induction chunks with
  | nil => intro i m hm; simp [fragMessagesAux] at hm
  | cons c rest ih =>
    intro i m hm
    rcases List.mem_cons.mp hm with h | h
    · exact ⟨c, i + 1, h, List.mem_cons_self c rest⟩
    · obtain ⟨t, j, hm', ht⟩ := ih (i + 1) m h
      exact ⟨t, j, hm', List.mem_cons_of_mem c ht⟩

theorem batch_not_mem_fragMessages {chunks : List (List Char)}
    {lines : List (List Char)} (h : Sent.batch lines ∈ fragMessages chunks) : False := by
  obtain ⟨t, j, hm, _⟩ := mem_fragMessagesAux chunks.length chunks 0 _ h
  exact Sent.noConfusion hm

/-- The fragment for position `k` (0-based) of a list of `n` identical chunks
is among the messages. -/
theorem frag_mem_fragMessagesAux_replicate (t : List Char) (total : Nat) :
    ∀ (n i k : Nat), k < n →
      Sent.frag t (i + k + 1) total ∈ fragMessagesAux total i (List.replicate n t) := by
  intro n
  induction n with
  | zero => intro i k hk; omega
  | succ m ih =>
    intro i k hk
    rw [List.replicate_succ]
    cases k with
    | zero => simp [fragMessagesAux]
    | succ k' =>
      have hmem := ih (i + 1) k' (by omega)
      have harith : i + 1 + k' + 1 = i + (k' + 1) + 1 := by omega
      rw [harith] at hmem
      exact List.mem_cons_of_mem _ hmem

/-! ## flushQueue lemmas -/

theorem mem_flushCurrent {current : List (List Char)} {m : Sent}
    (h : m ∈ flushCurrent current) : m = Sent.batch current := by
  by_cases hc : current.length = 0
  · simp [flushCurrent, hc] at h
  · simp [flushCurrent, hc] at h
    exact h

/-- No-loss/ordering master lemma: the loop delivers the in-progress batch
followed by every queued line, in order. -/
theorem flushLoop_delivered (cfg : BatchConfig) (hmc : 0 < cfg.maxContent) :
    ∀ (q current : List (List Char)) (len : Nat),
      delivered (flushLoop cfg q current len) = current.flatten ++ q.flatten := by
  intro q
  induction q with
  | nil =>
    intro current len
    simp only [flushLoop, List.flatten_nil, List.append_nil]
    by_cases hc : current.length = 0
    · have h0 : current = [] := List.length_eq_zero.mp hc
      subst h0; simp [flushCurrent, delivered]
    · simp [flushCurrent, hc, delivered, payload]
  | cons raw rest ih =>
    intro current len
    simp only [flushLoop]
    by_cases h1 : cfg.maxContent < raw.length
    · rw [if_pos h1, delivered_append, delivered_append, delivered_fragMessages,
        splitToChunks_flatten raw.length raw le_rfl hmc, ih [] 0]
      have hfc : delivered (flushCurrent current) = current.flatten := by
        by_cases hc : current.length = 0
        · have h0 : current = [] := List.length_eq_zero.mp hc
          subst h0; simp [flushCurrent, delivered]
        · simp [flushCurrent, hc, delivered, payload]
      rw [hfc]
      simp [List.flatten_cons, List.append_assoc]
    · rw [if_neg h1]
      by_cases h2 : cfg.maxContent < len + batchAddLen current raw
          ∨ cfg.maxLinesPerBatch < current.length + 1
      · rw [if_pos h2, delivered_append, ih [raw] (batchAddLen current raw)]
        have hfc : delivered (flushCurrent current) = current.flatten := by
          by_cases hc : current.length = 0
          · have h0 : current = [] := List.length_eq_zero.mp hc
            subst h0; simp [flushCurrent, delivered]
          · simp [flushCurrent, hc, delivered, payload]
        rw [hfc]
        simp [List.flatten_cons, List.append_assoc]
      · rw [if_neg h2, ih (current ++ [raw]) (len + batchAddLen current raw)]
        simp [List.flatten_cons, List.flatten_append, List.append_assoc]

/-- Generic invariant lemma for the batches the drain loop sends: if `P` holds
of the empty in-progress batch, is re-established when an overflow starts a
fresh batch, and is preserved when a line is appended, then every sent batch
satisfies `P` (at the running length it was sent with). -/
theorem flushLoop_batch_inv (cfg : BatchConfig)
    (P : List (List Char) → Nat → Prop)
    (hnil : P [] 0)
    (hstart : ∀ current len raw, P current len → raw.length ≤ cfg.maxContent →
      (cfg.maxContent < len + batchAddLen current raw
        ∨ cfg.maxLinesPerBatch < current.length + 1) →
      P [raw] (batchAddLen current raw))
    (hpush : ∀ current len raw, P current len → raw.length ≤ cfg.maxContent →
      ¬(cfg.maxContent < len + batchAddLen current raw
        ∨ cfg.maxLinesPerBatch < current.length + 1) →
      P (current ++ [raw]) (len + batchAddLen current raw)) :
    ∀ (q current : List (List Char)) (len : Nat), P current len →
      ∀ lines, Sent.batch lines ∈ flushLoop cfg q current len → ∃ m, P lines m := by
  intro q
  induction q with
  | nil =>
    intro current len hP lines hmem
    simp only [flushLoop] at hmem
    have := mem_flushCurrent hmem
    have hl : lines = current := by injection this
    subst hl
    exact ⟨len, hP⟩
  | cons raw rest ih =>
    intro current len hP lines hmem
    simp only [flushLoop] at hmem
    by_cases h1 : cfg.maxContent < raw.length
    · rw [if_pos h1] at hmem
      rcases List.mem_append.mp hmem with h | h
      · rcases List.mem_append.mp h with h' | h'
        · have := mem_flushCurrent h'
          have hl : lines = current := by injection this
          subst hl
          exact ⟨len, hP⟩
        · exact absurd h' (fun hmem' => batch_not_mem_fragMessages hmem')
      · exact ih [] 0 hnil lines h
    · rw [if_neg h1] at hmem
      have hraw : raw.length ≤ cfg.maxContent := by omega
      by_cases h2 : cfg.maxContent < len + batchAddLen current raw
          ∨ cfg.maxLinesPerBatch < current.length + 1
      · rw [if_pos h2] at hmem
        rcases List.mem_append.mp hmem with h | h
        · have := mem_flushCurrent h
          have hl : lines = current := by injection this
          subst hl
          exact ⟨len, hP⟩
        · exact ih [raw] (batchAddLen current raw) (hstart current len raw hP hraw h2) lines h
      · rw [if_neg h2] at hmem
        exact ih (current ++ [raw]) (len + batchAddLen current raw)
          (hpush current len raw hP hraw h2) lines hmem

/-- When no queued line is oversized, the drain loop sends batches only. -/
theorem flushLoop_all_batch (cfg : BatchConfig) :
    ∀ (q current : List (List Char)) (len : Nat),
      (∀ raw ∈ q, raw.length ≤ cfg.maxContent) →
      ∀ m ∈ flushLoop cfg q current len, ∃ lines, m = Sent.batch lines := by
  intro q
  induction q with
  | nil =>
    intro current len _ m hm
    simp only [flushLoop] at hm
    exact ⟨current, mem_flushCurrent hm⟩
  | cons raw rest ih =>
    intro current len hq m hm
    simp only [flushLoop] at hm
    have h1 : ¬cfg.maxContent < raw.length := by
      have := hq raw (List.mem_cons_self raw rest)
      omega
    rw [if_neg h1] at hm
    have hq' : ∀ r ∈ rest, r.length ≤ cfg.maxContent :=
      fun r hr => hq r (List.mem_cons_of_mem raw hr)
    by_cases h2 : cfg.maxContent < len + batchAddLen current raw
        ∨ cfg.maxLinesPerBatch < current.length + 1
    · rw [if_pos h2] at hm
      rcases List.mem_append.mp hm with h | h
      · exact ⟨current, mem_flushCurrent h⟩
      · exact ih [raw] (batchAddLen current raw) hq' m h
    · rw [if_neg h2] at hm
      exact ih (current ++ [raw]) (len + batchAddLen current raw) hq' m hm

/-! ## joinNL / batchAddLen lemmas -/

theorem joinNL_cons_cons (l x : List Char) (xs : List (List Char)) :
    joinNL (l :: x :: xs) = l ++ '\n' :: joinNL (x :: xs) := rfl

theorem joinNL_append_singleton (current : List (List Char)) (raw : List Char) :
    joinNL (current ++ [raw])
      = joinNL current ++ (if current.length = 0 then [] else ['\n']) ++ raw := by
  induction current with
  | nil => simp [joinNL]
  | cons l rest ih =>
    cases rest with
    | nil => simp [joinNL]
    | cons l2 rest2 =>
      show joinNL (l :: l2 :: (rest2 ++ [raw])) = _
      rw [joinNL_cons_cons l l2 (rest2 ++ [raw]),
        show l2 :: (rest2 ++ [raw]) = (l2 :: rest2) ++ [raw] from rfl, ih,
        joinNL_cons_cons l l2 rest2]
      simp

theorem joinNL_length_append (current : List (List Char)) (raw : List Char) :
    (joinNL (current ++ [raw])).length
      = (joinNL current).length + batchAddLen current raw := by
  rw [joinNL_append_singleton]
  by_cases h : current.length = 0
  · simp [batchAddLen, h]
  · simp [batchAddLen, h]
    omega

theorem le_batchAddLen (current : List (List Char)) (raw : List Char) :
    raw.length ≤ batchAddLen current raw := by
  unfold batchAddLen
  split <;> omega

theorem batchAddLen_nil (raw : List Char) : batchAddLen [] raw = raw.length := by
  simp [batchAddLen]

theorem batchAddLen_of_ne_nil {current : List (List Char)} (h : current ≠ [])
    (raw : List Char) : batchAddLen current raw = 1 + raw.length := by
  have hl : current.length ≠ 0 := fun h0 => h (List.length_eq_zero.mp h0)
  simp [batchAddLen, hl]

/-! ## C1: no loss, no duplication, no reordering -/

/-- C1: for every sequence of lines passed to `enqueue`, assuming the channel
is available and no send fails, the text delivered across all batches and
oversized-line fragments of `flushQueue`, read in delivery order, concatenates
to exactly the concatenation of the enqueued (sanitized) lines in enqueue
order — nothing lost, duplicated or reordered. -/
theorem C1_no_loss_no_reorder (cfg : BatchConfig) (rawLines : List (List Char))
    (hmc : 0 < cfg.maxContent) :
    delivered (flushQueue cfg (enqueueAll rawLines)) = (enqueueAll rawLines).flatten := by
  rw [flushQueue, flushLoop_delivered cfg hmc]
  rfl

/-- C1 witness: the delivery/no-loss theorem applied at the source's default
configuration and a concrete two-line enqueue. -/
theorem C1_witness :
    0 < defaultConfig.maxContent
      ∧ delivered (flushQueue defaultConfig (enqueueAll [['h', 'i'], ['@']]))
        = (enqueueAll [['h', 'i'], ['@']]).flatten :=
  ⟨by decide, C1_no_loss_no_reorder defaultConfig [['h', 'i'], ['@']] (by decide)⟩

/-! ## C2: batch bounds -/

/-- C2: every batch sent by `flushQueue` simultaneously satisfies both bounds:
the length of its lines joined by newline (its sent content) is at most
`maxContent`, and its line count is at most `maxLinesPerBatch`, whenever
`maxLinesPerBatch ≥ 1` (every line that enters a batch is non-oversized by
the dispatch test, so the claim's hypothesis on pending lines is automatic). -/
theorem C2_batch_bounds (cfg : BatchConfig) (queue : List (List Char))
    (hml : 1 ≤ cfg.maxLinesPerBatch) :
    ∀ lines, Sent.batch lines ∈ flushQueue cfg queue →
      (Sent.content (Sent.batch lines)).length ≤ cfg.maxContent
        ∧ lines.length ≤ cfg.maxLinesPerBatch := by
  intro lines hmem
  have key := flushLoop_batch_inv cfg
    (fun cur len => (joinNL cur).length ≤ len ∧ (joinNL cur).length ≤ cfg.maxContent
      ∧ cur.length ≤ cfg.maxLinesPerBatch)
    (by refine ⟨?_, ?_, ?_⟩ <;> simp [joinNL])
    (fun current len raw hP hraw hover => by
      refine ⟨?_, ?_, ?_⟩
      · exact le_of_le_of_eq (le_batchAddLen current raw) rfl
      · simpa [joinNL] using hraw
      · simpa using hml)
    (fun current len raw hP hraw hnot => by
      push_neg at hnot
      obtain ⟨hchars, hlines⟩ := hnot
      obtain ⟨hp1, hp2, hp3⟩ := hP
      refine ⟨?_, ?_, ?_⟩
      · rw [joinNL_length_append]; omega
      · rw [joinNL_length_append]; omega
      · simp only [List.length_append, List.length_cons, List.length_nil]; omega)
    queue [] 0 (by refine ⟨?_, ?_, ?_⟩ <;> simp [joinNL]) lines hmem
  obtain ⟨m, h1, h2, h3⟩ := key
  exact ⟨by simpa [Sent.content] using h2, h3⟩

/-- C2 witness: the bounds at the default configuration on a concrete batch
actually sent by `flushQueue`. -/
theorem C2_witness :
    (Sent.content (Sent.batch [['h', 'i']])).length ≤ defaultConfig.maxContent
      ∧ [['h', 'i']].length ≤ defaultConfig.maxLinesPerBatch :=
  C2_batch_bounds defaultConfig [['h', 'i']] (by decide) [['h', 'i']] (by decide)

/-! ## C3: oversized lines -/

/-- C3: an enqueued line longer than `maxContent` is never placed into any
batch (so in particular never with other lines); it is split into exactly
`ceil (length / maxContent)` fragments, each of length at most `maxContent`,
whose concatenation is the original line, each sent as its own message
carrying the chunk total, with the positional suffix `[i/total]` appended to
the sent content exactly when the fragment count exceeds 1. -/
theorem C3_oversized_chunking (cfg : BatchConfig) (raw : List Char)
    (hmc : 0 < cfg.maxContent) (hov : cfg.maxContent < raw.length) :
    (splitToChunks raw cfg.maxContent).length
        = (raw.length + cfg.maxContent - 1) / cfg.maxContent
      ∧ (∀ c ∈ splitToChunks raw cfg.maxContent, c.length ≤ cfg.maxContent)
      ∧ (splitToChunks raw cfg.maxContent).flatten = raw
      ∧ (∀ q lines, Sent.batch lines ∈ flushQueue cfg q → raw ∉ lines)
      ∧ (∀ m ∈ fragMessages (splitToChunks raw cfg.maxContent), ∃ t i,
          m = Sent.frag t i (splitToChunks raw cfg.maxContent).length
            ∧ Sent.content m
              = t ++ (if 1 < (splitToChunks raw cfg.maxContent).length
                  then posSuffix i (splitToChunks raw cfg.maxContent).length
                  else [])) := by
  refine ⟨splitToChunks_count raw.length raw le_rfl hmc,
    fun c hc => splitToChunks_length_le raw.length raw le_rfl c hc,
    splitToChunks_flatten raw.length raw le_rfl hmc, ?_, ?_⟩
  · intro q lines hmem hrawmem
    have key := flushLoop_batch_inv cfg
      (fun cur _ => ∀ l ∈ cur, l.length ≤ cfg.maxContent)
      (by simp)
      (fun current len raw' hP hraw' hover' => by
        intro l hl
        rcases List.mem_singleton.mp hl with rfl
        exact hraw')
      (fun current len raw' hP hraw' hnot => by
        intro l hl
        rcases List.mem_append.mp hl with h | h
        · exact hP l h
        · rcases List.mem_singleton.mp h with rfl
          exact hraw')
      q [] 0 (by simp) lines hmem
    obtain ⟨m, hP⟩ := key
    have := hP raw hrawmem
    omega
  · intro m hm
    obtain ⟨t, j, hmeq, ht⟩ :=
      mem_fragMessagesAux (splitToChunks raw cfg.maxContent).length
        (splitToChunks raw cfg.maxContent) 0 m hm
    subst hmeq
    exact ⟨t, j, rfl, rfl⟩

/-- C3 witness: a length-3 line with `maxContent = 2` splits into
`ceil (3/2) = 2` fragments. -/
theorem C3_witness :
    (splitToChunks ['a', 'b', 'c'] (⟨2, 40⟩ : BatchConfig).maxContent).length
      = (['a', 'b', 'c'].length + (⟨2, 40⟩ : BatchConfig).maxContent - 1)
        / (⟨2, 40⟩ : BatchConfig).maxContent :=
  (C3_oversized_chunking ⟨2, 40⟩ ['a', 'b', 'c'] (by decide) (by decide)).1

/-! ## C4: the chunker contract -/

/-- C4: for every string and every positive `maxLen`, `splitToChunks` returns
an ordered sequence of substrings, each of length at most `maxLen`, whose
concatenation equals the input (no characters dropped or duplicated); in
particular `splitToChunks "abcdef" 2 = ["ab", "cd", "ef"]` and
`splitToChunks "abc" 10 = ["abc"]`. -/
theorem C4_splitToChunks_contract :
    (∀ (s : List Char) (maxLen : Nat), 0 < maxLen →
        (∀ c ∈ splitToChunks s maxLen, c.length ≤ maxLen)
          ∧ (splitToChunks s maxLen).flatten = s)
      ∧ splitToChunks ['a', 'b', 'c', 'd', 'e', 'f'] 2
          = [['a', 'b'], ['c', 'd'], ['e', 'f']]
      ∧ splitToChunks ['a', 'b', 'c'] 10 = [['a', 'b', 'c']] := by
  refine ⟨fun s maxLen hm =>
    ⟨fun c hc => splitToChunks_length_le s.length s le_rfl c hc,
      splitToChunks_flatten s.length s le_rfl hm⟩, ?_, ?_⟩
  · simp [splitToChunks]
  · simp [splitToChunks]

/-- C4 witness: the general contract applied at a concrete string and bound. -/
theorem C4_witness :
    0 < 2
      ∧ ((∀ c ∈ splitToChunks ['x', 'y', 'z'] 2, c.length ≤ 2)
        ∧ (splitToChunks ['x', 'y', 'z'] 2).flatten = ['x', 'y', 'z']) :=
  ⟨by decide, C4_splitToChunks_contract.1 ['x', 'y', 'z'] 2 (by decide)⟩

/-! ## C10: boundary behavior at exactly maxContent -/

/-- C10: the oversized test is strictly greater-than, so a line of length
exactly `maxContent` is never handed to the chunker — when no queued line
exceeds `maxContent` the flush emits batches only — and every batch that
contains a line of length exactly `maxContent` is the singleton batch of that
line. -/
theorem C10_boundary_exact (cfg : BatchConfig) (queue : List (List Char)) :
    ((∀ raw ∈ queue, raw.length ≤ cfg.maxContent) →
        ∀ m ∈ flushQueue cfg queue, ∃ lines, m = Sent.batch lines)
      ∧ (∀ lines, Sent.batch lines ∈ flushQueue cfg queue →
          ∀ l ∈ lines, l.length = cfg.maxContent → lines = [l]) := by
  constructor
  · intro hq m hm
    exact flushLoop_all_batch cfg queue [] 0 hq m hm
  · intro lines hmem l hl hlen
    have key := flushLoop_batch_inv cfg
      (fun cur len => ∀ l' ∈ cur, l'.length = cfg.maxContent
        → cur = [l'] ∧ cfg.maxContent ≤ len)
      (by simp)
      (fun current len raw hP hraw hover => by
        intro l' hl' hlen'
        rcases List.mem_singleton.mp hl' with rfl
        refine ⟨rfl, ?_⟩
        have := le_batchAddLen current l'
        omega)
      (fun current len raw hP hraw hnot => by
        push_neg at hnot
        obtain ⟨hchars, hlines⟩ := hnot
        intro l' hl' hlen'
        rcases List.mem_append.mp hl' with h | h
        · obtain ⟨hcur, hlenge⟩ := hP l' h hlen'
          have hne : current ≠ [] := by rw [hcur]; exact List.cons_ne_nil l' []
          rw [batchAddLen_of_ne_nil hne] at hchars
          omega
        · rcases List.mem_singleton.mp h with rfl
          by_cases hcur : current = []
          · subst hcur
            rw [batchAddLen_nil] at hchars ⊢
            exact ⟨rfl, by omega⟩
          · rw [batchAddLen_of_ne_nil hcur] at hchars
            omega)
      queue [] 0 (by simp) lines hmem
    obtain ⟨m, hP⟩ := key
    exact (hP l hl hlen).1

/-- C10 witness: with `maxContent = 3`, the length-3 line `"abc"` is flushed
as a batch of its own even between two short neighbours, and a queue of
non-oversized lines produces batch messages only. -/
theorem C10_witness :
    [['a', 'b', 'c']] = [['a', 'b', 'c']]
      ∧ (∃ lines, Sent.batch [['x']] = Sent.batch lines) :=
  ⟨(C10_boundary_exact ⟨3, 2⟩ [['x'], ['a', 'b', 'c'], ['y']]).2
      [['a', 'b', 'c']] (by decide) ['a', 'b', 'c'] (by decide) (by decide),
    (C10_boundary_exact ⟨3, 2⟩ [['x'], ['a', 'b', 'c'], ['y']]).1
      (by decide) (Sent.batch [['x']]) (by decide)⟩

/-! ## C7: the 2000-unit hard ceiling -/

/-- C7 (code bug): the hard content-length ceiling of 2000 units is
violated by fragment messages of sufficiently long enqueued lines.  A single
enqueued line of 1 990 000 repeated characters splits into 1000 full chunks
of `MAX_CONTENT = 1990` characters; fragment 999 is sent with content
`chunk ++ " [999/1000]"` of length `1990 + 11 = 2001 > 2000`.  (Batches and
fragments with at most 999 chunks stay within `1990 + 10 = 2000`; the
10-unit `SAFETY_HEADROOM` only covers positional suffixes with up to
three-digit counters.) -/
theorem C7_hard_limit_violated :
    Sent.frag (List.replicate 1990 'a') 999 1000
        ∈ flushQueue defaultConfig [List.replicate 1990000 'a']
      ∧ DISCORD_HARD_LIMIT
        < (Sent.content (Sent.frag (List.replicate 1990 'a') 999 1000)).length := by
  constructor
  · have hov : defaultConfig.maxContent < (List.replicate 1990000 'a').length := by
      rw [List.length_replicate]
      decide
    show _ ∈ flushLoop defaultConfig [List.replicate 1990000 'a'] [] 0
    simp only [flushLoop]
    rw [if_pos hov]
    have hchunks : splitToChunks (List.replicate 1990000 'a') defaultConfig.maxContent
        = List.replicate 1000 (List.replicate 1990 'a') := by
      have hmc : defaultConfig.maxContent = 1990 := rfl
      rw [hmc, show (1990000 : Nat) = 1000 * 1990 from by norm_num]
      exact splitToChunks_replicate 'a' (by norm_num) 1000
    rw [hchunks]
    have hfc : flushCurrent ([] : List (List Char)) = [] := rfl
    simp only [flushLoop, hfc, List.nil_append, List.append_nil]
    rw [fragMessages, List.length_replicate]
    have hmem := frag_mem_fragMessagesAux_replicate (List.replicate 1990 'a') 1000
      1000 0 998 (by norm_num)
    rw [show 0 + 998 + 1 = 999 from by norm_num] at hmem
    exact hmem
  · have h9 : (Nat.repr 999).data.length = 3 := by decide
    have h10 : (Nat.repr 1000).data.length = 4 := by decide
    have hcontent :
        (Sent.content (Sent.frag (List.replicate 1990 'a') 999 1000)).length = 2001 := by
      simp only [Sent.content]
      rw [if_pos (by norm_num : 1 < 1000), List.length_append, List.length_replicate,
        posSuffix]
      simp only [List.length_append, List.length_cons, List.length_singleton, h9, h10]
      norm_num
    rw [hcontent]
    decide

/-! ## RconManager (src/bot.ts:174-225)

The transport (`rcon-client`'s `Rcon`) is an external collaborator; the model
supplies its behaviour as a *world*: a list of outcomes for successive
`Rcon.connect` attempts and a list of outcomes for successive
`rcon.send(command)` calls.  Each attempt consumes exactly one outcome, so
"the failed command is not retried" is visible as "exactly one exec outcome
is consumed".  Execution is the source's single-threaded sequential path
(the `connecting` backoff of src/bot.ts:182-185 is a no-op when nothing
interleaves, and the `on("end")` handler of src/bot.ts:196-199 only fires on
asynchronous session termination, which is outside the claims proved here).
-/

/-- The manager's fields `rcon`, `connected`, `connecting`
(src/bot.ts:175-177).  The transport object itself carries no data the model
needs, so a live reference is `some ()`. -/
structure RconState where
  rcon : Option Unit
  connected : Bool
  connecting : Bool

/-- Outcomes the external transport will produce: one entry per
`Rcon.connect` attempt and one per `rcon.send` call, in order. -/
structure RconWorld where
  connects : List (Except String Unit)
  execs : List (Except String String)

/-- Pop the next outcome; an exhausted list yields a failure (the theorems
always supply as many outcomes as the run consumes). -/
def takeOutcome {α : Type} : List (Except String α) → Except String α × List (Except String α)
  | [] => (Except.error "no outcome", [])
  | o :: rest => (o, rest)

/-- `ensureConnected` (src/bot.ts:179-203): error when RCON is disabled
(src/bot.ts:180); no-op when `connected` and a transport is held
(src/bot.ts:181); otherwise attempt `Rcon.connect` — on success store the
transport, set `connected`, clear `connecting`; on failure clear `connecting`
(the `finally` of src/bot.ts:200-202) and propagate. -/
def rconEnsureConnected (enabled : Bool) (st : RconState) (w : RconWorld) :
    Except String Unit × RconState × RconWorld :=
  if enabled = false then (Except.error "RCON is disabled", st, w)
  else if st.connected && st.rcon.isSome then (Except.ok (), st, w)
  else
    match takeOutcome w.connects with
    | (Except.ok _, rest) =>
        (Except.ok (), ⟨some (), true, false⟩, { w with connects := rest })
    | (Except.error e, rest) =>
        (Except.error e, { st with connecting := false }, { w with connects := rest })

/-- `RconManager.send` (src/bot.ts:205-216): ensure connected, error if no
transport is held, otherwise forward the command to the transport; when the
transport exec throws, set `connected = false` and `rcon = null` and rethrow
the same failure (src/bot.ts:211-215). -/
def rconSend (enabled : Bool) (st : RconState) (w : RconWorld) (command : String) :
    Except String String × RconState × RconWorld :=
  match rconEnsureConnected enabled st w with
  | (Except.error e, st1, w1) => (Except.error e, st1, w1)
  | (Except.ok _, st1, w1) =>
    match st1.rcon with
    | none => (Except.error "RCON not connected", st1, w1)
    | some _ =>
      match takeOutcome w1.execs with
      | (Except.ok res, rest) => (Except.ok res, st1, { w1 with execs := rest })
      | (Except.error e, rest) =>
          (Except.error e, { st1 with connected := false, rcon := none },
            { w1 with execs := rest })

/-- C8: when the transport exec fails during `send`, the call clears the
local session state (`connected := false`, `rcon := null`) in the state it
hands back while propagating the very same failure; it consumes exactly one
exec outcome (no retry of the failed command) and touches no connect outcome;
and the next `send` from the invalidated state re-establishes a session from
scratch: it consumes a fresh connect outcome, and succeeds with the new
session's exec result when connect and exec succeed. -/
theorem C8_send_failure_invalidates (st : RconState) (w : RconWorld)
    (command e : String) (rest : List (Except String String))
    (hconn : st.connected = true) (hrcon : st.rcon = some ())
    (hexec : w.execs = Except.error e :: rest) :
    rconSend true st w command
        = (Except.error e, ⟨none, false, st.connecting⟩, { w with execs := rest })
      ∧ (∀ (command2 : String) (cs : List (Except String Unit))
            (es : List (Except String String)),
          (rconSend true ⟨none, false, st.connecting⟩
              ⟨Except.ok () :: cs, es⟩ command2).2.2.connects = cs)
      ∧ (∀ (command2 res : String) (cs : List (Except String Unit))
            (es : List (Except String String)),
          (rconSend true ⟨none, false, st.connecting⟩
              ⟨Except.ok () :: cs, Except.ok res :: es⟩ command2).1
            = Except.ok res) := by
  obtain ⟨r, c, cg⟩ := st
  obtain ⟨wc, we⟩ := w
  simp only at hconn hrcon hexec
  subst hconn
  subst hrcon
  subst hexec
  refine ⟨?_, ?_, ?_⟩
  · simp [rconSend, rconEnsureConnected, takeOutcome]
  · intro command2 cs es
    cases es with
    | nil => simp [rconSend, rconEnsureConnected, takeOutcome]
    | cons o es' =>
      cases o with
      | ok res => simp [rconSend, rconEnsureConnected, takeOutcome]
      | error e' => simp [rconSend, rconEnsureConnected, takeOutcome]
  · intro command2 res cs es
    simp [rconSend, rconEnsureConnected, takeOutcome]

/-- C8 witness: a concrete failing send on a live session, followed by a
successful re-establishment. -/
theorem C8_witness :
    rconSend true ⟨some (), true, false⟩ ⟨[], [Except.error "boom"]⟩ "list"
        = (Except.error "boom", ⟨none, false, false⟩, ⟨[], []⟩)
      ∧ (∀ (command2 : String) (cs : List (Except String Unit))
            (es : List (Except String String)),
          (rconSend true ⟨none, false, false⟩
              ⟨Except.ok () :: cs, es⟩ command2).2.2.connects = cs)
      ∧ (∀ (command2 res : String) (cs : List (Except String Unit))
            (es : List (Except String String)),
          (rconSend true ⟨none, false, false⟩
              ⟨Except.ok () :: cs, Except.ok res :: es⟩ command2).1
            = Except.ok res) :=
  C8_send_failure_invalidates ⟨some (), true, false⟩ ⟨[], [Except.error "boom"]⟩
    "list" "boom" [] rfl rfl rfl

/-! ## ShutdownCoordinator (src/bot.ts:298-353) -/

/-- The eight teardown steps of `shutdown`, in source order:
announce (src/bot.ts:303), write the no-restart flag (305-310), polite stop
over stdin (312-318), bounded grace wait with forced termination on timeout
(320-338), forced queue flush (340-342), rcon close (344-346), messenger
disconnect (348-350), process exit (352). -/
inductive TeardownStep where
  | announce
  | writeNoRestartFlag
  | politeStop
  | graceWait
  | forceFlush
  | rconClose
  | messengerDisconnect
  | exitProcess
deriving DecidableEq

/-- The teardown sequence in the order `shutdown` performs it. -/
def teardownSequence : List TeardownStep :=
  [.announce, .writeNoRestartFlag, .politeStop, .graceWait, .forceFlush,
    .rconClose, .messengerDisconnect, .exitProcess]

/-- The one-shot flag `shuttingDown` (src/bot.ts:70) together with the
history of teardown steps performed so far. -/
structure ShutdownState where
  shuttingDown : Bool
  executed : List TeardownStep
deriving DecidableEq

/-- One trigger of `shutdown` (src/bot.ts:298-353): `if (shuttingDown)
return; shuttingDown = true;` then the teardown sequence.  The guard is
checked and the flag set synchronously *before* the first suspension point
(line 300 precedes every `await`), so a second trigger — wherever it
interleaves with an in-flight teardown — observes `shuttingDown = true` and
returns at once; the model can therefore treat the guarded body atomically. -/
def triggerShutdown (st : ShutdownState) : ShutdownState :=
  if st.shuttingDown then st
  else { shuttingDown := true, executed := st.executed ++ teardownSequence }

/-- Iterated triggers (e.g. `SIGINT` and `SIGTERM` both arriving,
src/bot.ts:355-356). -/
def triggerTimes : Nat → ShutdownState → ShutdownState
  | 0, st => st
  | n + 1, st => triggerTimes n (triggerShutdown st)

theorem triggerTimes_fixed :
    ∀ n (st : ShutdownState), st.shuttingDown = true → triggerTimes n st = st := by
  intro n
  induction n with
  | zero => intro st h; rfl
  | succ m ih =>
    intro st h
    simp only [triggerTimes, triggerShutdown, h, if_pos]
    exact ih st h

/-- C9: shutdown is idempotent: a second trigger while a shutdown is already
running is a no-op under the one-shot flag, and from a fresh state any
positive number of triggers executes the teardown sequence exactly once. -/
theorem C9_shutdown_idempotent :
    (∀ st, triggerShutdown (triggerShutdown st) = triggerShutdown st)
      ∧ (∀ n, (triggerTimes (n + 1) ⟨false, []⟩).executed = teardownSequence) := by
  constructor
  · intro st
    by_cases h : st.shuttingDown
    · simp [triggerShutdown, h]
    · simp [triggerShutdown, h]
  · intro n
    have h1 : triggerShutdown ⟨false, []⟩ = ⟨true, teardownSequence⟩ := by
      simp [triggerShutdown]
    simp only [triggerTimes, h1]
    rw [triggerTimes_fixed n ⟨true, teardownSequence⟩ rfl]

end Bot
